import Mathlib

/-!
Verification of the 24LC256 EEPROM driver (`src/24LC256.h`).

The driver is shallowly embedded:

* The simulated device backing store is a function `mem : Nat → Nat`
  (byte value at each 16-bit address); all uint16 arithmetic of the C
  source is written with explicit `% 65536`, uint32 arithmetic with
  explicit `% 4294967296`.
* Every addressed bus transaction is recorded as a `Tx` event:
  `Tx.poll ok` for one `ackPolling()` call, `Tx.read a n` for one
  `readBytes(a, buf, n)` call, `Tx.write a p` for one
  `writeBytes(a, p, p.length)` call.
* `put` / `get` / `update` are translated loop-for-loop from the source;
  the loops are driven by a fuel argument that is provably sufficient
  whenever the C loop terminates (each C iteration consumes at least one
  byte), so fuel exhaustion models non-termination of the C loop.
* `ackPolling` is modelled against an injectable microsecond clock
  (`clock k` = the k-th value returned by `micros()`) and an
  acknowledgement oracle (`ack j` = the `Wire.endTransmission()` status
  of the j-th poll attempt); the result is `none` when the 6001-attempt
  fuel is exhausted, which, as proved below, cannot happen for a
  strictly monotonic clock.
-/

namespace E24LC256

/-- 2^16: modulus of the `uint16_t` arithmetic used throughout the driver. -/
def M16 : Nat := 65536

/-- 2^32: modulus of the `uint32_t` arithmetic used by `ackPolling`. -/
def M32 : Nat := 4294967296

/-- `uint32_t` subtraction `a - b`, as used in `micros() - startPolling`. -/
def u32sub (a b : Nat) : Nat := (a % M32 + M32 - b % M32) % M32

/-- One addressed bus transaction, as counted by a transaction-counting
mock transport: a readiness poll (`ackPolling`), a data read
(`readBytes`: address set followed by `requestFrom` of `n` bytes), or a
data write (`writeBytes`: address followed by the payload bytes). -/
inductive Tx where
  | poll (ok : Bool)
  | read (addr n : Nat)
  | write (addr : Nat) (payload : List Nat)
deriving DecidableEq

/-- Number of data-read transactions in a trace. -/
def countReads (l : List Tx) : Nat :=
  (l.filter fun tx => match tx with | Tx.read _ _ => true | _ => false).length

/-- Number of data-write transactions in a trace. -/
def countWrites (l : List Tx) : Nat :=
  (l.filter fun tx => match tx with | Tx.write _ _ => true | _ => false).length

/-- Number of readiness-poll transactions in a trace. -/
def countPolls (l : List Tx) : Nat :=
  (l.filter fun tx => match tx with | Tx.poll _ => true | _ => false).length

/-- Bytes streamed back by the device from address `addr` on: the device
auto-increments its address, the host touches `mem` at each 16-bit
address.  Models the copy loop of `readBytes`. -/
def readList (mem : Nat → Nat) : Nat → Nat → List Nat
  | _, 0 => []
  | addr, n + 1 => mem (addr % M16) :: readList mem (addr + 1) n

/-- Store byte `v` at 16-bit address `addr`. -/
def setByte (mem : Nat → Nat) (addr v : Nat) : Nat → Nat :=
  fun x => if x = addr % M16 then v else mem x

/-- Effect of `writeBytes(addr, ptr, n)` on the simulated backing store:
the payload bytes land at consecutive addresses. -/
def writeList : (Nat → Nat) → Nat → List Nat → (Nat → Nat)
  | mem, _, [] => mem
  | mem, addr, v :: rest => writeList (setByte mem addr v) (addr + 1) rest

/-- The source line
`uint16_t remainingPageSize = pageSize * (address / pageSize + 1) - address;`
with every operation performed in `uint16_t` arithmetic. -/
def remainingPage (pageSize addr : Nat) : Nat :=
  (pageSize * ((addr / pageSize + 1) % M16) % M16 + M16 - addr % M16) % M16

/-- The chunk-size computation of `put`:
`nbytes = putSize; if (remainingPageSize < nbytes) ...; if (remainingDataSize < nbytes) ...`
where `putSize = pageSize - 2`. -/
def chunkSize (pageSize addr remainingDataSize : Nat) : Nat :=
  let nb0 := pageSize - 2
  let nb1 := if remainingPage pageSize addr < nb0 then remainingPage pageSize addr else nb0
  if remainingDataSize < nb1 then remainingDataSize else nb1

/-- Device-facing state threaded through `put`: the simulated backing
store and the number of `ackPolling` calls made so far (index into the
poll-outcome oracle). -/
structure Core where
  mem : Nat → Nat
  pollCount : Nat

/-- The `while (remainingDataSize > 0)` loop of `put`.  `polls k` is the
outcome of the k-th `ackPolling()` call.  Each iteration: compute the
three-way-minimum chunk, poll (abort on failure, returning `t`
unmodified), read the chunk, compare it with the new data, and only on a
difference write the chunk and poll again.  Returns the final core state
and the emitted transaction trace.  The fuel argument only has to be at
least `data.length` because every iteration consumes at least one byte
(proved below for the build-time page sizes 32 and 64). -/
def putLoop (pageSize : Nat) (polls : Nat → Bool) :
    Nat → Nat → List Nat → Core → Core × List Tx
  | 0, _, _, c => (c, [])
  | fuel + 1, addr, data, c =>
    if data.length = 0 then (c, [])
    else
      let n := chunkSize pageSize addr data.length
      if polls c.pollCount then
        let c1 : Core := ⟨c.mem, c.pollCount + 1⟩
        let chunk := readList c.mem addr n
        if chunk = data.take n then
          let r := putLoop pageSize polls fuel ((addr + n) % M16) (data.drop n) c1
          (r.1, Tx.poll true :: Tx.read addr n :: r.2)
        else
          let ok2 := polls c1.pollCount
          let c2 : Core := ⟨writeList c1.mem addr (data.take n), c1.pollCount + 1⟩
          let r := putLoop pageSize polls fuel ((addr + n) % M16) (data.drop n) c2
          (r.1, Tx.poll true :: Tx.read addr n :: Tx.write addr (data.take n)
            :: Tx.poll ok2 :: r.2)
      else (⟨c.mem, c.pollCount + 1⟩, [Tx.poll false])

/-- `template <typename T> T &put(uint16_t address, T &t)`: `data` is the
byte representation of `t`; `initsize = sizeof(T)` is a `uint16_t`, hence
the `% M16` truncation of the length. -/
def put (pageSize : Nat) (polls : Nat → Bool) (address : Nat) (data : List Nat)
    (mem : Nat → Nat) : Core × List Tx :=
  putLoop pageSize polls (data.length % M16) (address % M16)
    (data.take (data.length % M16)) ⟨mem, 0⟩

/-- The `for (uint16_t i = 0; i < size; i += bufferSize)` loop of `get`.
Returns the bytes read, the emitted read transactions, and whether the
loop exited through its `i < size` test (fuel exhaustion models a C loop
that has not terminated). -/
def getLoop (bufferSize : Nat) (mem : Nat → Nat) (addr size : Nat) :
    Nat → Nat → List Nat × List Tx × Bool
  | 0, _ => ([], [], false)
  | fuel + 1, i =>
    if i < size then
      let block := if size - i < bufferSize then size - i else bufferSize
      let r := getLoop bufferSize mem addr size fuel ((i + bufferSize) % M16)
      (readList mem ((addr + i) % M16) block ++ r.1,
        Tx.read ((addr + i) % M16) block :: r.2.1, r.2.2)
    else ([], [], true)

/-- `template <typename T> T &get(uint16_t address, T &t)`: one readiness
poll, then the chunked read loop.  `t` is the byte representation of the
destination object; `size = sizeof(T)` is a `uint16_t`.  The first result
is the byte representation of the returned object: `some` bytes when the
loop terminated (bytes read overwrite the front of `t`), `none` when the
C loop never terminates; on a failed poll the object is returned
untouched. -/
def get (bufferSize : Nat) (pollOk : Bool) (mem : Nat → Nat) (address : Nat)
    (t : List Nat) : Option (List Nat) × List Tx :=
  let size := t.length % M16
  if pollOk then
    let r := getLoop bufferSize mem (address % M16) size (size + 1) 0
    (if r.2.2 then some (r.1 ++ t.drop r.1.length) else none, Tx.poll true :: r.2.1)
  else (some t, [Tx.poll false])

/-- `uint8_t read(uint16_t address)`: poll, then a one-byte read.  The C
function falls off its end when the poll fails (no return statement), so
the value is `none` in that case. -/
def read1 (pollOk : Bool) (mem : Nat → Nat) (address : Nat) : Option Nat × List Tx :=
  if pollOk then (some (mem (address % M16)), [Tx.poll true, Tx.read (address % M16) 1])
  else (none, [Tx.poll false])

/-- `void write(uint16_t address, uint8_t data)`: poll, then a one-byte
write transaction. -/
def write1 (pollOk : Bool) (mem : Nat → Nat) (address v : Nat) :
    (Nat → Nat) × List Tx :=
  if pollOk then (setByte mem address v, [Tx.poll true, Tx.write (address % M16) [v]])
  else (mem, [Tx.poll false])

/-- `void update(uint16_t address, uint8_t data)`: read the byte, write
only if it differs.  `polls 0` and `polls 1` are the outcomes of the
polls inside `read` and `write`; `g` is the indeterminate value the C
`read` yields when its poll fails (missing return statement). -/
def update (polls : Nat → Bool) (g : Nat) (mem : Nat → Nat) (address v : Nat) :
    (Nat → Nat) × List Tx :=
  let r := read1 (polls 0) mem address
  let a := r.1.getD g
  if a ≠ v then
    let w := write1 (polls 1) mem address v
    (w.1, r.2 ++ w.2)
  else (mem, r.2)

/-- One poll attempt of `ackPolling`: the elapsed `uint32_t` time at
which its `while` test admitted it, the data bytes of its transaction
(`Wire.write((uint8_t) 0)` queues the single byte 0), and its
`Wire.endTransmission()` status. -/
structure Attempt where
  elapsed : Nat
  payload : List Nat
  code : Nat
deriving DecidableEq

/-- The `while (code != 0 && micros() - startPolling < 6000)` loop of
`ackPolling`.  `clock k` is the k-th `micros()` reading (reading 0 is
`startPolling`, reading `j` is the one taken by the j-th `while` test);
`ack j` is the status of the j-th attempt.  Returns `none` on fuel
exhaustion, otherwise the result of `code == 0` together with the
attempts made. -/
def ackLoop (clock ack : Nat → Nat) : Nat → Nat → Option (Bool × List Attempt)
  | 0, _ => none
  | fuel + 1, j =>
    if u32sub (clock j) (clock 0) < 6000 then
      let a : Attempt := ⟨u32sub (clock j) (clock 0), [0], ack j⟩
      if ack j = 0 then some (true, [a])
      else
        match ackLoop clock ack fuel (j + 1) with
        | none => none
        | some (b, l) => some (b, a :: l)
    else some (false, [])

/-- `bool ackPolling()`.  The fuel 6001 is enough for any strictly
monotonic clock: attempt `j` requires an elapsed time below 6000 µs, and
at least `j` µs have elapsed before attempt `j`. -/
def ackPolling (clock ack : Nat → Nat) : Option (Bool × List Attempt) :=
  ackLoop clock ack 6001 1

/-- Attempts of an `ackPolling` result. -/
def attemptsOf (r : Option (Bool × List Attempt)) : List Attempt :=
  (r.map Prod.snd).getD []

/-- `l` never contains a data-write transaction that is not immediately
preceded by a data read of the same address and the same length: the
read-compare-then-write discipline of `put`.  The first argument carries
the address and length of an immediately preceding read, if any. -/
def cbwAux : Option (Nat × Nat) → List Tx → Bool
  | _, [] => true
  | prev, Tx.write a p :: rest =>
    (match prev with
      | some (ra, rn) => a == ra && p.length == rn
      | none => false) && cbwAux none rest
  | _, Tx.read a n :: rest => cbwAux (some (a, n)) rest
  | _, Tx.poll _ :: rest => cbwAux none rest

/-- Every write in `l` is immediately preceded by a read of equal
address and length. -/
def cbw (l : List Tx) : Bool := cbwAux none l

/-! ### Basic facts about the byte-store primitives -/

lemma readList_length (mem : Nat → Nat) : ∀ n addr, (readList mem addr n).length = n := by
  intro n
  induction n with
  | zero => intro addr; rfl
  | succ k ih => intro addr; simp [readList, ih]

lemma readList_congr (mem : Nat → Nat) :
    ∀ n a b, a % M16 = b % M16 → readList mem a n = readList mem b n := by
  intro n
  induction n with
  | zero => intro a b _; rfl
  | succ k ih =>
    intro a b h
    simp only [readList, h]
    rw [ih (a + 1) (b + 1) (by unfold M16 at h ⊢; omega)]

lemma readList_getElem? (mem : Nat → Nat) :
    ∀ n addr i, (readList mem addr n)[i]? =
      if i < n then some (mem ((addr + i) % M16)) else none := by
  intro n
  induction n with
  | zero => intro addr i; simp [readList]
  | succ k ih =>
    intro addr i
    cases i with
    | zero => simp [readList]
    | succ j =>
      simp only [readList, List.getElem?_cons_succ, ih (addr + 1) j]
      have h1 : addr + 1 + j = addr + (j + 1) := by omega
      rw [h1]
      by_cases h : j < k
      · rw [if_pos h, if_pos (by omega)]
      · rw [if_neg h, if_neg (by omega)]

lemma readList_append (mem : Nat → Nat) :
    ∀ n m addr, readList mem addr (n + m) =
      readList mem addr n ++ readList mem (addr + n) m := by
  intro n
  induction n with
  | zero => intro m addr; simp [readList]
  | succ k ih =>
    intro m addr
    have h1 : k + 1 + m = (k + m) + 1 := by omega
    rw [h1]
    simp only [readList, List.cons_append]
    rw [ih m (addr + 1)]
    have h2 : addr + 1 + k = addr + (k + 1) := by omega
    rw [h2]

lemma writeList_get :
    ∀ (l : List Nat) (mem : Nat → Nat) (a : Nat), a + l.length ≤ 65536 →
      ∀ x, writeList mem a l x =
        if a ≤ x ∧ x < a + l.length then l.getD (x - a) 0 else mem x := by
  intro l
  induction l with
  | nil =>
    intro mem a _ x
    simp only [writeList, List.length_nil]
    rw [if_neg (by omega)]
  | cons v rest ih =>
    intro mem a ha x
    have ha16 : a % M16 = a := Nat.mod_eq_of_lt (by simp at ha; unfold M16; omega)
    simp only [writeList, List.length_cons] at ha ⊢
    rw [ih (setByte mem a v) (a + 1) (by omega) x]
    by_cases h1 : a + 1 ≤ x ∧ x < a + 1 + rest.length
    · rw [if_pos h1, if_pos (by omega)]
      have hx : x - a = (x - (a + 1)) + 1 := by omega
      rw [hx, List.getD_cons_succ]
    · rw [if_neg h1]
      unfold setByte
      rw [ha16]
      by_cases h2 : x = a
      · subst h2
        rw [if_pos rfl, if_pos (by omega)]
        simp
      · rw [if_neg h2, if_neg (by omega)]

/-! ### The page-boundary arithmetic (claim C4) -/

lemma remainingPage_eq (a : Nat) (_ha : a < 65536) :
    remainingPage 32 a = 32 - a % 32 ∧ remainingPage 64 a = 64 - a % 64 := by
  unfold remainingPage M16
  constructor <;> omega

/-- **C4.** For every 16-bit address, the source expression
`pageSize * (address / pageSize + 1) - address`, evaluated in 16-bit
wrap-around arithmetic (`remainingPage`), equals
`page_size - (address mod page_size)`, the spec's
`bytes_to_page_boundary` — for both build-time page sizes (32 on AVR,
64 on ESP8266), including the addresses of the last page, where the
multiplication overflows 2^16. -/
theorem remainingPage_correct :
    ∀ a : Nat, a < 65536 →
      remainingPage 32 a = 32 - a % 32 ∧ remainingPage 64 a = 64 - a % 64 :=
  fun a ha => remainingPage_eq a ha

/-- Witness for `remainingPage_correct` at address 65530, which lies in
the last page of both geometries (the multiplication wraps). -/
theorem remainingPage_correct_witness :
    remainingPage 32 65530 = 32 - 65530 % 32 ∧ remainingPage 64 65530 = 64 - 65530 % 64 :=
  remainingPage_correct 65530 (by decide)

/-! ### Bounds on the three-way-minimum chunk of `put` -/

lemma chunkSize_le_putSize (ps a r : Nat) : chunkSize ps a r ≤ ps - 2 := by
  simp only [chunkSize]
  split_ifs <;> omega

lemma chunkSize_le_rem (ps a r : Nat) : chunkSize ps a r ≤ r := by
  simp only [chunkSize]
  split_ifs <;> omega

lemma chunkSize_min (ps a r : Nat) (hps : ps = 32 ∨ ps = 64) (ha : a < 65536) :
    chunkSize ps a r = min (ps - 2) (min (ps - a % ps) r) := by
  rcases hps with h | h <;> subst h <;> simp only [chunkSize]
  · rw [(remainingPage_eq a ha).1]
    split_ifs <;> omega
  · rw [(remainingPage_eq a ha).2]
    split_ifs <;> omega

lemma chunkSize_pos (ps a r : Nat) (hps : ps = 32 ∨ ps = 64) (ha : a < 65536)
    (hr : 0 < r) : 0 < chunkSize ps a r := by
  rw [chunkSize_min ps a r hps ha]
  rcases hps with h | h <;> subst h <;> omega

/-! ### The transactions emitted by the `put` loop -/

lemma putLoop_tx_le (ps : Nat) (polls : Nat → Bool) :
    ∀ fuel addr data (c : Core), ∀ tx ∈ (putLoop ps polls fuel addr data c).2,
      (∀ a n, tx = Tx.read a n → n ≤ ps - 2) ∧
      (∀ a p, tx = Tx.write a p → p.length ≤ ps - 2) := by
  intro fuel
  induction fuel with
  | zero => intro addr data c tx h; simp [putLoop] at h
  | succ k ih =>
    intro addr data c tx h
    simp only [putLoop] at h
    split at h
    · simp at h
    · split at h
      · split at h
        · simp only [List.mem_cons] at h
          rcases h with h | h | h
          · subst h; exact ⟨fun a n hn => by simp at hn, fun a p hp => by simp at hp⟩
          · subst h
            refine ⟨fun a n hn => ?_, fun a p hp => by simp at hp⟩
            obtain ⟨rfl, rfl⟩ := Tx.read.inj hn
            exact chunkSize_le_putSize ps addr data.length
          · exact ih _ _ _ tx h
        · simp only [List.mem_cons] at h
          rcases h with h | h | h | h | h
          · subst h; exact ⟨fun a n hn => by simp at hn, fun a p hp => by simp at hp⟩
          · subst h
            refine ⟨fun a n hn => ?_, fun a p hp => by simp at hp⟩
            obtain ⟨rfl, rfl⟩ := Tx.read.inj hn
            exact chunkSize_le_putSize ps addr data.length
          · subst h
            refine ⟨fun a n hn => by simp at hn, fun a p hp => ?_⟩
            obtain ⟨rfl, rfl⟩ := Tx.write.inj hp
            calc (data.take (chunkSize ps addr data.length)).length
                ≤ chunkSize ps addr data.length := by
                  simp [List.length_take]
              _ ≤ ps - 2 := chunkSize_le_putSize ps addr data.length
          · subst h; exact ⟨fun a n hn => by simp at hn, fun a p hp => by simp at hp⟩
          · exact ih _ _ _ tx h
      · simp only [List.mem_cons] at h
        rcases h with h | h
        · subst h; exact ⟨fun a n hn => by simp at hn, fun a p hp => by simp at hp⟩
        · simp at h

lemma getD_take (l : List Nat) (n i : Nat) (h : i < n) :
    (l.take n).getD i 0 = l.getD i 0 := by
  rw [List.getD_eq_getElem?_getD, List.getD_eq_getElem?_getD, List.getElem?_take,
    if_pos h]

lemma getD_drop (l : List Nat) (n i : Nat) :
    (l.drop n).getD i 0 = l.getD (n + i) 0 := by
  rw [List.getD_eq_getElem?_getD, List.getD_eq_getElem?_getD, List.getElem?_drop]

lemma putLoop_nil (ps : Nat) (polls : Nat → Bool) (fuel addr : Nat) (c : Core) :
    putLoop ps polls fuel addr [] c = (c, []) := by
  cases fuel <;> simp [putLoop]

@[simp] lemma countWrites_nil : countWrites [] = 0 := rfl

@[simp] lemma countWrites_cons_poll (b : Bool) (l : List Tx) :
    countWrites (Tx.poll b :: l) = countWrites l := rfl

@[simp] lemma countWrites_cons_read (a n : Nat) (l : List Tx) :
    countWrites (Tx.read a n :: l) = countWrites l := rfl

@[simp] lemma countWrites_cons_write (a : Nat) (p : List Nat) (l : List Tx) :
    countWrites (Tx.write a p :: l) = countWrites l + 1 := by
  simp [countWrites, List.filter_cons]

@[simp] lemma countReads_nil : countReads [] = 0 := rfl

@[simp] lemma countReads_cons_poll (b : Bool) (l : List Tx) :
    countReads (Tx.poll b :: l) = countReads l := rfl

@[simp] lemma countReads_cons_read (a n : Nat) (l : List Tx) :
    countReads (Tx.read a n :: l) = countReads l + 1 := by
  simp [countReads, List.filter_cons]

@[simp] lemma countReads_cons_write (a : Nat) (p : List Nat) (l : List Tx) :
    countReads (Tx.write a p :: l) = countReads l := rfl

@[simp] lemma countPolls_nil : countPolls [] = 0 := rfl

@[simp] lemma countPolls_cons_poll (b : Bool) (l : List Tx) :
    countPolls (Tx.poll b :: l) = countPolls l + 1 := by
  simp [countPolls, List.filter_cons]

@[simp] lemma countPolls_cons_read (a n : Nat) (l : List Tx) :
    countPolls (Tx.read a n :: l) = countPolls l := rfl

@[simp] lemma countPolls_cons_write (a : Nat) (p : List Nat) (l : List Tx) :
    countPolls (Tx.write a p :: l) = countPolls l := rfl

/-- If the device bytes at `[addr, addr + n)` read back equal to the
first `n` bytes of `data`, the backing store agrees with `data`
pointwise on that range. -/
lemma store_point (mem : Nat → Nat) (addr : Nat) (data : List Nat) (n : Nat)
    (h : readList mem addr n = data.take n) (haddr : addr + n ≤ 65536) :
    ∀ x, addr ≤ x → x < addr + n → mem x = data.getD (x - addr) 0 := by
  intro x h1 h2
  have hi : x - addr < n := by omega
  have e1 : (readList mem addr n)[x - addr]? = some (mem x) := by
    rw [readList_getElem? mem n addr (x - addr), if_pos hi]
    have hx : addr + (x - addr) = x := by omega
    rw [hx, Nat.mod_eq_of_lt (show x < M16 by unfold M16; omega)]
  rw [h, List.getElem?_take, if_pos hi] at e1
  rw [List.getD_eq_getElem?_getD, e1]
  rfl

/-- Exact payload size of every write transaction emitted by the `put`
loop: the three-way minimum of the transport capacity, the distance to
the next page boundary, and the bytes remaining (`addr + data.length`
is the end address of the whole transfer). -/
lemma putLoop_tx_min (ps : Nat) (polls : Nat → Bool) (hps : ps = 32 ∨ ps = 64) :
    ∀ fuel addr data (c : Core), addr + data.length ≤ 65536 →
      ∀ tx ∈ (putLoop ps polls fuel addr data c).2,
        ∀ a p, tx = Tx.write a p →
          p.length = min (ps - 2) (min (ps - a % ps) (addr + data.length - a)) ∧
          a % ps + p.length ≤ ps := by
  intro fuel
  induction fuel with
  | zero => intro addr data c _ tx h; simp [putLoop] at h
  | succ k ih =>
    intro addr data c hA tx h
    by_cases hlen : data.length = 0
    · simp [putLoop, hlen] at h
    · have haddr : addr < 65536 := by omega
      have hnle : chunkSize ps addr data.length ≤ data.length :=
        chunkSize_le_rem ps addr data.length
      have hmin := chunkSize_min ps addr data.length hps haddr
      have hrec : ∀ c' : Core,
          ∀ tx ∈ (putLoop ps polls k ((addr + chunkSize ps addr data.length) % M16)
            (data.drop (chunkSize ps addr data.length)) c').2,
          ∀ a p, tx = Tx.write a p →
            p.length = min (ps - 2) (min (ps - a % ps) (addr + data.length - a)) ∧
            a % ps + p.length ≤ ps := by
        intro c' tx' h' a p hp
        by_cases hend : addr + chunkSize ps addr data.length = 65536
        · have hdn : data.drop (chunkSize ps addr data.length) = [] :=
            List.drop_eq_nil_of_le (by omega)
          rw [hdn, putLoop_nil] at h'
          simp at h'
        · have h16 : (addr + chunkSize ps addr data.length) % M16 =
              addr + chunkSize ps addr data.length :=
            Nat.mod_eq_of_lt (by unfold M16; omega)
          rw [h16] at h'
          have := ih (addr + chunkSize ps addr data.length)
            (data.drop (chunkSize ps addr data.length)) c'
            (by simp [List.length_drop]; omega) tx' h' a p hp
          rwa [List.length_drop,
            show addr + chunkSize ps addr data.length +
              (data.length - chunkSize ps addr data.length) = addr + data.length by
                omega] at this
      simp only [putLoop, if_neg hlen] at h
      split at h
      · split at h
        · simp only [List.mem_cons] at h
          rcases h with h | h | h
          · subst h; intro a p hp; simp at hp
          · subst h; intro a p hp; simp at hp
          · exact hrec _ tx h
        · simp only [List.mem_cons] at h
          rcases h with h | h | h | h | h
          · subst h; intro a p hp; simp at hp
          · subst h; intro a p hp; simp at hp
          · subst h
            intro a p hp
            obtain ⟨rfl, rfl⟩ := Tx.write.inj hp
            have hlt : (data.take (chunkSize ps addr data.length)).length =
                chunkSize ps addr data.length := by
              simp [List.length_take]; omega
            constructor
            · rw [hlt, show addr + data.length - addr = data.length by omega]
              exact hmin
            · rw [hlt]
              rcases hps with hh | hh <;> subst hh <;> omega
          · subst h; intro a p hp; simp at hp
          · exact hrec _ tx h
      · simp only [List.mem_cons] at h
        rcases h with h | h
        · subst h; intro a p hp; simp at hp
        · simp at h

/-- Write suppression: when the backing store already holds the bytes to
be written, no iteration of the `put` loop takes the write branch, and
the store is left untouched.  (The poll oracle is arbitrary: a timeout
merely ends the loop early.) -/
lemma putLoop_nowrite (ps : Nat) (polls : Nat → Bool) :
    ∀ fuel addr data (c : Core),
      readList c.mem addr data.length = data →
      countWrites (putLoop ps polls fuel addr data c).2 = 0 ∧
      (putLoop ps polls fuel addr data c).1.mem = c.mem := by
  intro fuel
  induction fuel with
  | zero => intro addr data c _; simp [putLoop]
  | succ k ih =>
    intro addr data c hstore
    by_cases hlen : data.length = 0
    · simp [putLoop, hlen]
    · have hnle : chunkSize ps addr data.length ≤ data.length :=
        chunkSize_le_rem ps addr data.length
      have hsum : chunkSize ps addr data.length +
          (data.length - chunkSize ps addr data.length) = data.length := by omega
      have hsplit : readList c.mem addr (chunkSize ps addr data.length) ++
          readList c.mem (addr + chunkSize ps addr data.length)
            (data.length - chunkSize ps addr data.length) =
          data.take (chunkSize ps addr data.length) ++
            data.drop (chunkSize ps addr data.length) := by
        rw [← readList_append, hsum, hstore, List.take_append_drop]
      have hlens : (readList c.mem addr (chunkSize ps addr data.length)).length =
          (data.take (chunkSize ps addr data.length)).length := by
        rw [readList_length, List.length_take]; omega
      obtain ⟨heq, hrest⟩ := List.append_inj hsplit hlens
      have hrest' : readList c.mem
          ((addr + chunkSize ps addr data.length) % M16)
          (data.length - chunkSize ps addr data.length) =
          data.drop (chunkSize ps addr data.length) := by
        rw [readList_congr c.mem _ ((addr + chunkSize ps addr data.length) % M16)
          (addr + chunkSize ps addr data.length) (by unfold M16; omega)]
        exact hrest
      by_cases hp : polls c.pollCount
      · simp only [putLoop, if_neg hlen, if_pos hp, if_pos heq]
        have := ih ((addr + chunkSize ps addr data.length) % M16)
          (data.drop (chunkSize ps addr data.length)) ⟨c.mem, c.pollCount + 1⟩
          (by
            rw [List.length_drop]
            exact hrest')
        simp only [countWrites_cons_poll, countWrites_cons_read]
        exact this
      · simp only [putLoop, if_neg hlen, if_neg hp]
        simp

/-- In every trace of the `put` loop, a write transaction only ever
appears immediately after a read of the same address and length. -/
lemma putLoop_cbw (ps : Nat) (polls : Nat → Bool) :
    ∀ fuel addr data (c : Core) prev,
      cbwAux prev (putLoop ps polls fuel addr data c).2 = true := by
  intro fuel
  induction fuel with
  | zero => intro addr data c prev; simp [putLoop, cbwAux]
  | succ k ih =>
    intro addr data c prev
    by_cases hlen : data.length = 0
    · simp [putLoop, hlen, cbwAux]
    · by_cases hp : polls c.pollCount
      · simp only [putLoop, if_neg hlen, if_pos hp]
        split
        · simp only [cbwAux]
          exact ih _ _ _ _
        · have h1 : (data.take (chunkSize ps addr data.length)).length =
              chunkSize ps addr data.length := by
            rw [List.length_take]
            exact Nat.min_eq_left (chunkSize_le_rem ps addr data.length)
          simp [cbwAux, h1, ih]
      · have hlen' : data ≠ [] := by
          intro h
          rw [h] at hlen
          exact hlen rfl
        simp [putLoop, hp, hlen', cbwAux]

/-- Running the `put` loop with every readiness poll succeeding installs
the new bytes on `[addr, addr + data.length)` and touches nothing else.
(Chunks equal to the stored bytes are skipped, but the store already
agrees with the new data there.) -/
lemma putLoop_mem (ps : Nat) (polls : Nat → Bool) (hps : ps = 32 ∨ ps = 64)
    (hpolls : ∀ j, polls j = true) :
    ∀ fuel addr data (c : Core), data.length ≤ fuel → addr + data.length ≤ 65536 →
      ∀ x, (putLoop ps polls fuel addr data c).1.mem x =
        if addr ≤ x ∧ x < addr + data.length then data.getD (x - addr) 0
        else c.mem x := by
  intro fuel
  induction fuel with
  | zero =>
    intro addr data c hfuel hA x
    simp only [putLoop]
    rw [if_neg (by omega)]
  | succ k ih =>
    intro addr data c hfuel hA x
    by_cases hlen : data.length = 0
    · simp only [putLoop, if_pos hlen]
      rw [if_neg (by omega)]
    · have haddr : addr < 65536 := by omega
      have hpos := chunkSize_pos ps addr data.length hps haddr (by omega)
      have hnle := chunkSize_le_rem ps addr data.length
      have hmain : ∀ (mem0 : Nat → Nat) (pc : Nat),
          (∀ y, addr ≤ y → y < addr + chunkSize ps addr data.length →
            mem0 y = data.getD (y - addr) 0) →
          (∀ y, ¬(addr ≤ y ∧ y < addr + chunkSize ps addr data.length) →
            mem0 y = c.mem y) →
          (putLoop ps polls k ((addr + chunkSize ps addr data.length) % M16)
            (data.drop (chunkSize ps addr data.length)) ⟨mem0, pc⟩).1.mem x =
          if addr ≤ x ∧ x < addr + data.length then data.getD (x - addr) 0
          else c.mem x := by
        intro mem0 pc hlow hout
        by_cases hend : addr + chunkSize ps addr data.length = 65536
        · have hneq : chunkSize ps addr data.length = data.length := by omega
          rw [List.drop_eq_nil_of_le (by omega), putLoop_nil]
          by_cases hx : addr ≤ x ∧ x < addr + data.length
          · rw [if_pos hx]
            exact hlow x hx.1 (by omega)
          · rw [if_neg hx]
            exact hout x (by omega)
        · have h16 : (addr + chunkSize ps addr data.length) % M16 =
              addr + chunkSize ps addr data.length :=
            Nat.mod_eq_of_lt (by unfold M16; omega)
          rw [h16]
          have hrec := ih (addr + chunkSize ps addr data.length)
            (data.drop (chunkSize ps addr data.length)) ⟨mem0, pc⟩
            (by rw [List.length_drop]; omega)
            (by rw [List.length_drop]; omega) x
          rw [List.length_drop] at hrec
          rw [hrec]
          by_cases hx1 : addr + chunkSize ps addr data.length ≤ x ∧
              x < addr + chunkSize ps addr data.length +
                (data.length - chunkSize ps addr data.length)
          · rw [if_pos hx1, if_pos (by omega), getD_drop]
            congr 1
            omega
          · rw [if_neg hx1]
            show mem0 x = if addr ≤ x ∧ x < addr + data.length
              then data.getD (x - addr) 0 else c.mem x
            by_cases hx2 : addr ≤ x ∧ x < addr + chunkSize ps addr data.length
            · rw [hlow x hx2.1 hx2.2, if_pos (by omega)]
            · rw [hout x hx2, if_neg (by omega)]
      simp only [putLoop, if_neg hlen, hpolls c.pollCount, if_true]
      split
      · next heq =>
        exact hmain c.mem (c.pollCount + 1)
          (store_point c.mem addr data (chunkSize ps addr data.length) heq (by omega))
          (fun y _ => rfl)
      · next hne =>
        have hwl := writeList_get (data.take (chunkSize ps addr data.length))
          c.mem addr
          (by rw [List.length_take]; omega)
        have htl : (data.take (chunkSize ps addr data.length)).length =
            chunkSize ps addr data.length := by
          rw [List.length_take]; omega
        have hlow2 : ∀ y, addr ≤ y → y < addr + chunkSize ps addr data.length →
            writeList c.mem addr (data.take (chunkSize ps addr data.length)) y =
            data.getD (y - addr) 0 := by
          intro y hy1 hy2
          rw [hwl y, htl, if_pos (by omega), getD_take]
          omega
        have hout2 : ∀ y, ¬(addr ≤ y ∧ y < addr + chunkSize ps addr data.length) →
            writeList c.mem addr (data.take (chunkSize ps addr data.length)) y =
            c.mem y := by
          intro y hy
          rw [hwl y, htl, if_neg (by omega)]
        exact hmain (writeList c.mem addr (data.take (chunkSize ps addr data.length)))
          (c.pollCount + 2) hlow2 hout2

/-! ### The chunked read loop of `get` -/

/-- Terminating runs of the `get` loop, starting at loop index `v`:
the loop exits through its `i < size` test, returns the bytes
`[A + v, A + S)` in order, and emits one read transaction per chunk of
`min bufferSize remaining` bytes.  Requires `S + bufferSize ≤ 65536`, so
the `uint16_t` index `i` never wraps. -/
lemma getLoop_ok (bs : Nat) (mem : Nat → Nat) (A S : Nat)
    (hbs : bs = 32 ∨ bs = 128) (hS : S + bs ≤ 65536) :
    ∀ fuel v, S - v + 1 ≤ fuel →
      getLoop bs mem A S fuel v =
        (readList mem (A + v) (S - v),
          (List.range ((S - v + bs - 1) / bs)).map
            (fun j => Tx.read ((A + v + bs * j) % M16) (min bs (S - v - bs * j))),
          true) := by
  have hbs0 : 0 < bs := by rcases hbs with rfl | rfl <;> norm_num
  intro fuel
  induction fuel with
  | zero => intro v hf; omega
  | succ k ih =>
    intro v hf
    by_cases hv : v < S
    · simp only [getLoop, if_pos hv]
      have h16 : (v + bs) % M16 = v + bs := by unfold M16; omega
      have hceil : (S - v + bs - 1) / bs = (S - (v + bs) + bs - 1) / bs + 1 := by
        by_cases hb : S - v < bs
        · have e1 : S - v + bs - 1 = (S - v - 1) + bs := by omega
          have e2 : S - (v + bs) = 0 := by omega
          rw [e1, Nat.add_div_right _ hbs0, e2,
            Nat.div_eq_of_lt (by omega), Nat.div_eq_of_lt (by omega)]
        · have e1 : S - v + bs - 1 = (S - (v + bs) + bs - 1) + bs := by omega
          rw [e1, Nat.add_div_right _ hbs0]
      rw [h16, ih (v + bs) (by omega)]
      have hblock : (if S - v < bs then S - v else bs) = min bs (S - v) := by
        split_ifs <;> omega
      refine Prod.ext ?_ (Prod.ext ?_ rfl)
      · show readList mem ((A + v) % M16) (if S - v < bs then S - v else bs) ++
          readList mem (A + (v + bs)) (S - (v + bs)) = readList mem (A + v) (S - v)
        rw [readList_congr mem _ ((A + v) % M16) (A + v) (by unfold M16; omega)]
        by_cases hb : S - v < bs
        · have e2 : S - (v + bs) = 0 := by omega
          rw [if_pos hb, e2]
          show readList mem (A + v) (S - v) ++ [] = readList mem (A + v) (S - v)
          rw [List.append_nil]
        · rw [if_neg hb]
          have e3 : S - v = bs + (S - (v + bs)) := by omega
          rw [e3, readList_append]
          have e4 : A + v + bs = A + (v + bs) := by omega
          rw [e4]
      · show Tx.read ((A + v) % M16) (if S - v < bs then S - v else bs) ::
          (List.range ((S - (v + bs) + bs - 1) / bs)).map
            (fun j => Tx.read ((A + (v + bs) + bs * j) % M16)
              (min bs (S - (v + bs) - bs * j))) =
          (List.range ((S - v + bs - 1) / bs)).map
            (fun j => Tx.read ((A + v + bs * j) % M16) (min bs (S - v - bs * j)))
        rw [hceil, List.range_succ_eq_map, List.map_cons, List.map_map]
        congr 1
        · show Tx.read ((A + v) % M16) (if S - v < bs then S - v else bs) =
            Tx.read ((A + v + bs * 0) % M16) (min bs (S - v - bs * 0))
          rw [hblock, Nat.mul_zero, Nat.add_zero, Nat.sub_zero]
        · refine List.map_congr_left ?_
          intro j _
          show Tx.read ((A + (v + bs) + bs * j) % M16) (min bs (S - (v + bs) - bs * j)) =
            Tx.read ((A + v + bs * (j + 1)) % M16) (min bs (S - v - bs * (j + 1)))
          rw [Nat.mul_succ]
          have e5 : A + v + (bs * j + bs) = A + (v + bs) + bs * j := by omega
          have e6 : S - v - (bs * j + bs) = S - (v + bs) - bs * j := by omega
          rw [e5, e6]
    · simp only [getLoop, if_neg hv]
      have e1 : S - v = 0 := by omega
      have e2 : (S - v + bs - 1) / bs = 0 := by
        rw [e1]
        exact Nat.div_eq_of_lt (by omega)
      rw [e2, e1]
      rfl

/-- Non-terminating runs of the `get` loop: when the object size exceeds
`65536 - bufferSize`, the `uint16_t` loop index wraps around before ever
reaching `size`, so the exit test never succeeds — every unit of fuel
produces one more read transaction and the loop never completes. -/
lemma getLoop_wrap (bs : Nat) (mem : Nat → Nat) (A S : Nat)
    (hbs : bs = 32 ∨ bs = 128) (hS1 : 65536 - bs < S) (hS2 : S < 65536) :
    ∀ fuel v, v % bs = 0 → v ≤ 65536 - bs →
      (getLoop bs mem A S fuel v).2.2 = false ∧
      countReads (getLoop bs mem A S fuel v).2.1 = fuel := by
  intro fuel
  induction fuel with
  | zero => intro v _ _; simp [getLoop]
  | succ k ih =>
    intro v hv1 hv2
    have hvS : v < S := by rcases hbs with rfl | rfl <;> omega
    have hnext : (v + bs) % M16 % bs = 0 ∧ (v + bs) % M16 ≤ 65536 - bs := by
      unfold M16
      rcases hbs with rfl | rfl <;> omega
    have hrec := ih ((v + bs) % M16) hnext.1 hnext.2
    simp only [getLoop, if_pos hvS]
    exact ⟨hrec.1, by rw [countReads_cons_read]; rw [hrec.2]⟩

/-- A terminating `get` with a successful poll: the returned object is
exactly the stored bytes `[A, A + S)`, the trace is one poll followed by
the ceil-division chunk reads. -/
lemma get_ok (bs : Nat) (mem : Nat → Nat) (A : Nat) (t : List Nat)
    (hbs : bs = 32 ∨ bs = 128) (hS : t.length + bs ≤ 65536) :
    get bs true mem A t =
      (some (readList mem A t.length),
        Tx.poll true :: (List.range ((t.length + bs - 1) / bs)).map
          (fun j => Tx.read ((A + bs * j) % M16) (min bs (t.length - bs * j)))) := by
  have hbs0 : 0 < bs := by rcases hbs with rfl | rfl <;> norm_num
  have hsz : t.length % M16 = t.length := Nat.mod_eq_of_lt (by unfold M16; omega)
  have hloop := getLoop_ok bs mem (A % M16) t.length hbs hS (t.length + 1) 0 (by omega)
  simp only [get, hsz]
  rw [if_pos trivial, hloop]
  dsimp only
  simp only [Nat.sub_zero, Nat.add_zero]
  rw [readList_length, List.drop_length, List.append_nil,
    readList_congr mem t.length (A % M16) A (by unfold M16; omega)]
  refine Prod.ext rfl ?_
  show Tx.poll true :: _ = Tx.poll true :: _
  congr 1
  refine List.map_congr_left ?_
  intro j _
  show Tx.read ((A % M16 + bs * j) % M16) (min bs (t.length - bs * j)) =
    Tx.read ((A + bs * j) % M16) (min bs (t.length - bs * j))
  rw [Nat.mod_add_mod]

/-! ### The acknowledgement-polling loop -/

lemma clock_lower (clock : Nat → Nat) (hm : ∀ k, clock k < clock (k + 1)) :
    ∀ j, clock 0 + j ≤ clock j
  | 0 => Nat.le_refl _
  | j + 1 => by
    have h1 := clock_lower clock hm j
    have h2 := hm j
    omega

lemma clock_shift (clock : Nat → Nat) (hm : ∀ k, clock k < clock (k + 1)) :
    ∀ d i, clock i ≤ clock (i + d)
  | 0, _ => Nat.le_refl _
  | d + 1, i => by
    have h1 := clock_shift clock hm d i
    have h2 := hm (i + d)
    have h3 : i + (d + 1) = (i + d) + 1 := by omega
    rw [h3]
    omega

lemma clock_mono (clock : Nat → Nat) (hm : ∀ k, clock k < clock (k + 1))
    {i j : Nat} (h : i ≤ j) : clock i ≤ clock j := by
  have h1 := clock_shift clock hm (j - i) i
  rw [show i + (j - i) = j from by omega] at h1
  exact h1

lemma u32sub_eq (a b : Nat) (h1 : b ≤ a) (h2 : a - b < M32) :
    u32sub a b = a - b := by
  unfold u32sub M32 at *
  omega

/-- If no attempt is ever acknowledged, the polling loop runs out of
time, not fuel: from the j-th `while` test on (with at least `j` µs on
the clock), it reaches the `micros() - startPolling < 6000` exit,
returns the failure result, and every admitted attempt starts below
6000 µs of elapsed time; at most `6000 - j` attempts follow. -/
lemma ackLoop_timeout (clock ack : Nat → Nat)
    (hm : ∀ k, clock k < clock (k + 1))
    (hb : clock 6001 - clock 0 < M32)
    (ha : ∀ j, ack j ≠ 0) :
    ∀ fuel j, 1 ≤ j → j ≤ 6000 → 6001 ≤ fuel + j →
      ∃ l, ackLoop clock ack fuel j = some (false, l) ∧
        (∀ a ∈ l, a.elapsed < 6000) ∧ l.length + j ≤ 6000 := by
  intro fuel
  induction fuel with
  | zero => intro j h1 h2 h3; omega
  | succ k ih =>
    intro j h1 h2 h3
    have hcj : clock 0 + j ≤ clock j := clock_lower clock hm j
    have hcb : clock j - clock 0 < M32 := by
      have := clock_mono clock hm (show j ≤ 6001 by omega)
      omega
    have hsub : u32sub (clock j) (clock 0) = clock j - clock 0 :=
      u32sub_eq (clock j) (clock 0) (by omega) hcb
    by_cases hin : u32sub (clock j) (clock 0) < 6000
    · have hj : j < 6000 := by omega
      obtain ⟨l, hl, helapsed, hlen⟩ := ih (j + 1) (by omega) (by omega) (by omega)
      refine ⟨⟨u32sub (clock j) (clock 0), [0], ack j⟩ :: l, ?_, ?_, by
        simp only [List.length_cons]; omega⟩
      · simp only [ackLoop, if_pos hin, if_neg (ha j), hl]
      · intro a hmem
        rcases List.mem_cons.mp hmem with rfl | hmem
        · exact hin
        · exact helapsed a hmem
    · exact ⟨[], by simp only [ackLoop, if_neg hin], by simp,
        by simp only [List.length_nil]; omega⟩

/-- Shape of any completed `ackPolling` run: every poll attempt's
transaction carries the single data byte 0, and the result is `true`
exactly when some (necessarily the last) attempt was acknowledged with
status 0. -/
lemma ackLoop_shape (clock ack : Nat → Nat) :
    ∀ fuel j b l, ackLoop clock ack fuel j = some (b, l) →
      (∀ a ∈ l, a.payload = [0]) ∧ (b = true ↔ ∃ a ∈ l, a.code = 0) := by
  intro fuel
  induction fuel with
  | zero => intro j b l h; simp [ackLoop] at h
  | succ k ih =>
    intro j b l h
    simp only [ackLoop] at h
    split at h
    · split at h
      · next hack =>
        obtain ⟨rfl, rfl⟩ := Prod.mk.injEq _ _ _ _ ▸ (Option.some.inj h)
        refine ⟨by intro a hmem; simp at hmem; rw [hmem], ?_⟩
        simp [hack]
      · next hack =>
        split at h
        · exact absurd h (by simp)
        · next b' l' hrec =>
          obtain ⟨rfl, rfl⟩ := Prod.mk.injEq _ _ _ _ ▸ (Option.some.inj h)
          obtain ⟨hpay, hiff⟩ := ih (j + 1) b' l' hrec
          constructor
          · intro a hmem
            rcases List.mem_cons.mp hmem with rfl | hmem
            · rfl
            · exact hpay a hmem
          · rw [hiff]
            constructor
            · intro ⟨a, hmem, hcode⟩
              exact ⟨a, List.mem_cons_of_mem _ hmem, hcode⟩
            · intro ⟨a, hmem, hcode⟩
              rcases List.mem_cons.mp hmem with rfl | hmem
              · exact absurd hcode hack
              · exact ⟨a, hmem, hcode⟩
    · obtain ⟨rfl, rfl⟩ := Prod.mk.injEq _ _ _ _ ▸ (Option.some.inj h)
      simp

/-- A failed readiness poll at the head of a `put` iteration: the loop
returns at once, emitting only the failed poll. -/
lemma putLoop_abort (ps : Nat) (polls : Nat → Bool) (fuel addr : Nat)
    (data : List Nat) (c : Core) (hlen : data.length ≠ 0) (hfuel : fuel ≠ 0)
    (hpoll : polls c.pollCount = false) :
    putLoop ps polls fuel addr data c = (⟨c.mem, c.pollCount + 1⟩, [Tx.poll false]) := by
  cases fuel with
  | zero => exact absurd rfl hfuel
  | succ k => simp [putLoop, hlen, hpoll]

lemma readList_prefix (mem : Nat → Nat) (A : Nat) (data : List Nat)
    (heq : readList mem A data.length = data) (k : Nat) (hk : k ≤ data.length) :
    readList mem A k = data.take k := by
  have hsplit := readList_append mem k (data.length - k) A
  rw [show k + (data.length - k) = data.length from by omega, heq] at hsplit
  have h2 : readList mem A k ++ readList mem (A + k) (data.length - k) =
      data.take k ++ data.drop k := by
    rw [← hsplit, List.take_append_drop]
  exact (List.append_inj h2 (by rw [readList_length, List.length_take]; omega)).1

lemma countReads_map_read (g h : Nat → Nat) :
    ∀ l : List Nat, countReads (l.map fun j => Tx.read (g j) (h j)) = l.length := by
  intro l
  induction l with
  | nil => rfl
  | cons x xs ih => simp only [List.map_cons, countReads_cons_read, List.length_cons, ih]

lemma countPolls_map_read (g h : Nat → Nat) :
    ∀ l : List Nat, countPolls (l.map fun j => Tx.read (g j) (h j)) = 0 := by
  intro l
  induction l with
  | nil => rfl
  | cons x xs ih => simp only [List.map_cons, countPolls_cons_read, ih]

/-! ### Claim theorems -/

/-- **C1.** For every object size and every starting address (within the
16-bit address space), each write transaction issued by `put` carries
exactly `min(page_size - 2, bytes_to_page_boundary, remaining)` payload
bytes (`A + data.length - a` being the bytes remaining at chunk address
`a`); consequently no single write transaction's payload crosses a page
boundary (`a % ps + length ≤ ps`) and none carries more than
`page_size - 2` payload bytes.  Holds for both build-time page sizes. -/
theorem put_write_tx_min3 (ps : Nat) (polls : Nat → Bool) (A : Nat)
    (data : List Nat) (mem : Nat → Nat)
    (hps : ps = 32 ∨ ps = 64) (hA : A + data.length ≤ 65536) :
    ∀ a p, Tx.write a p ∈ (put ps polls A data mem).2 →
      p.length = min (ps - 2) (min (ps - a % ps) (A + data.length - a)) ∧
      a % ps + p.length ≤ ps ∧ p.length ≤ ps - 2 := by
  intro a p hmem
  unfold put at hmem
  by_cases hlen : data.length = 65536
  · rw [hlen, show (65536 : Nat) % M16 = 0 from by unfold M16; norm_num] at hmem
    simp [putLoop] at hmem
  · have hsz : data.length % M16 = data.length :=
      Nat.mod_eq_of_lt (by unfold M16; omega)
    by_cases hlen0 : data.length = 0
    · rw [hsz, hlen0] at hmem
      simp [putLoop] at hmem
    · have hA16 : A < 65536 := by omega
      rw [hsz, Nat.mod_eq_of_lt (show A < M16 by unfold M16; omega),
        List.take_length] at hmem
      have h := putLoop_tx_min ps polls hps data.length A data ⟨mem, 0⟩ hA
        (Tx.write a p) hmem a p rfl
      exact ⟨h.1, h.2, by rw [h.1]; exact Nat.min_le_left _ _⟩

/-- Witness for `put_write_tx_min3`: the spec's concrete scenario — an
8-byte object written at address 30 with page size 32 crosses the page
boundary at 32; the first write transaction carries exactly 2 bytes. -/
theorem put_write_tx_min3_witness :
    Tx.write 30 [1, 2] ∈
      (put 32 (fun _ => true) 30 [1, 2, 3, 4, 5, 6, 7, 8] (fun _ => 0)).2 ∧
    (([1, 2] : List Nat).length =
      min (32 - 2) (min (32 - 30 % 32)
        (30 + ([1, 2, 3, 4, 5, 6, 7, 8] : List Nat).length - 30)) ∧
      30 % 32 + ([1, 2] : List Nat).length ≤ 32 ∧
      ([1, 2] : List Nat).length ≤ 32 - 2) :=
  ⟨by decide,
    put_write_tx_min3 32 (fun _ => true) 30 [1, 2, 3, 4, 5, 6, 7, 8] (fun _ => 0)
      (Or.inl rfl) (by decide) 30 [1, 2] (by decide)⟩

/-- **C10.** Every read transaction issued from `put`'s loop requests at
most `pageSize - 2` bytes (30 on AVR, 62 on ESP8266), and in particular
at most 64 bytes, so copying the bytes read into the private 64-byte
`readBuffer` never writes past its end, in either build configuration. -/
theorem put_read_fits_buffer (ps : Nat) (polls : Nat → Bool) (A : Nat)
    (data : List Nat) (mem : Nat → Nat) (hps : ps = 32 ∨ ps = 64) :
    ∀ a n, Tx.read a n ∈ (put ps polls A data mem).2 → n ≤ ps - 2 ∧ n ≤ 64 := by
  intro a n hmem
  unfold put at hmem
  have h := (putLoop_tx_le ps polls (data.length % M16) (A % M16)
    (data.take (data.length % M16)) ⟨mem, 0⟩ (Tx.read a n) hmem).1 a n rfl
  exact ⟨h, by rcases hps with rfl | rfl <;> omega⟩

/-- Witness for `put_read_fits_buffer` at the concrete §8 scenario. -/
theorem put_read_fits_buffer_witness :
    Tx.read 30 2 ∈
      (put 32 (fun _ => true) 30 [1, 2, 3, 4, 5, 6, 7, 8] (fun _ => 0)).2 ∧
    ((2 : Nat) ≤ 32 - 2 ∧ (2 : Nat) ≤ 64) :=
  ⟨by decide,
    put_read_fits_buffer 32 (fun _ => true) 30 [1, 2, 3, 4, 5, 6, 7, 8] (fun _ => 0)
      (Or.inl rfl) 30 2 (by decide)⟩

/-- **C5.** If the readiness poll at the start of a `put` iteration times
out, `put` returns immediately: the failed poll is the only transaction
of the iteration (no further read or write transactions), and the device
state — including all bytes committed by earlier iterations, already in
`c.mem` — is left exactly as it was (no rollback).  The caller's
in-memory object is untouched (`put` never writes through its object
pointer), and no failure indication is produced beyond the returned
object. -/
theorem put_poll_timeout_abort (ps : Nat) (polls : Nat → Bool) (fuel addr : Nat)
    (data : List Nat) (c : Core) (hlen : data.length ≠ 0) (hfuel : fuel ≠ 0)
    (hpoll : polls c.pollCount = false) :
    (putLoop ps polls fuel addr data c).1.mem = c.mem ∧
    (putLoop ps polls fuel addr data c).2 = [Tx.poll false] ∧
    countReads (putLoop ps polls fuel addr data c).2 = 0 ∧
    countWrites (putLoop ps polls fuel addr data c).2 = 0 := by
  rw [putLoop_abort ps polls fuel addr data c hlen hfuel hpoll]
  exact ⟨rfl, rfl, rfl, rfl⟩

/-- Witness for `put_poll_timeout_abort` with a transport that never
acknowledges. -/
theorem put_poll_timeout_abort_witness :
    (putLoop 32 (fun _ => false) 1 0 [5] ⟨fun _ => 0, 0⟩).1.mem =
      (⟨fun _ => 0, 0⟩ : Core).mem ∧
    (putLoop 32 (fun _ => false) 1 0 [5] ⟨fun _ => 0, 0⟩).2 = [Tx.poll false] ∧
    countReads (putLoop 32 (fun _ => false) 1 0 [5] ⟨fun _ => 0, 0⟩).2 = 0 ∧
    countWrites (putLoop 32 (fun _ => false) 1 0 [5] ⟨fun _ => 0, 0⟩).2 = 0 :=
  put_poll_timeout_abort 32 (fun _ => false) 1 0 [5] ⟨fun _ => 0, 0⟩
    (by decide) (by decide) rfl

/-- **C3.** If the device's backing store at `[A, A + S)` already equals
the object's byte representation, `put` issues zero write transactions
(its trace holds only poll and read transactions) and leaves the device
contents unchanged; moreover — for arbitrary store contents — every
write transaction in a `put` trace is immediately preceded by a read of
the same address and equal length, against which the chunk was compared
byte-for-byte. -/
theorem put_write_suppression (ps : Nat) (polls : Nat → Bool) (A : Nat)
    (data : List Nat) (mem : Nat → Nat)
    (hA : A < 65536) (heq : readList mem A data.length = data) :
    countWrites (put ps polls A data mem).2 = 0 ∧
    (put ps polls A data mem).1.mem = mem ∧
    cbw (put ps polls A data mem).2 = true := by
  unfold put
  rw [Nat.mod_eq_of_lt (show A < M16 by unfold M16; omega)]
  have hk : data.length % M16 ≤ data.length := Nat.mod_le _ _
  have hpre := readList_prefix mem A data heq (data.length % M16) hk
  have h := putLoop_nowrite ps polls (data.length % M16) A
    (data.take (data.length % M16)) ⟨mem, 0⟩
    (by
      show readList mem A (data.take (data.length % M16)).length =
        data.take (data.length % M16)
      rw [List.length_take, Nat.min_eq_left hk]
      exact hpre)
  exact ⟨h.1, h.2, putLoop_cbw ps polls (data.length % M16) A
    (data.take (data.length % M16)) ⟨mem, 0⟩ none⟩

/-- Witness for `put_write_suppression`: a 2-byte object whose bytes are
already stored at address 30. -/
theorem put_write_suppression_witness :
    countWrites (put 32 (fun _ => true) 30 [1, 2]
      (fun x => if x = 30 then 1 else if x = 31 then 2 else 0)).2 = 0 ∧
    (put 32 (fun _ => true) 30 [1, 2]
      (fun x => if x = 30 then 1 else if x = 31 then 2 else 0)).1.mem =
      (fun x => if x = 30 then 1 else if x = 31 then 2 else 0) ∧
    cbw (put 32 (fun _ => true) 30 [1, 2]
      (fun x => if x = 30 then 1 else if x = 31 then 2 else 0)).2 = true :=
  put_write_suppression 32 (fun _ => true) 30 [1, 2]
    (fun x => if x = 30 then 1 else if x = 31 then 2 else 0)
    (by decide) (by decide)

/-- **C2 (amended).** For every object `O` of fixed size `S` and every
address `A` with `A + S ≤ 2^16` — and, as forced by the counterexample
`put_get_roundtrip_cex`, `S ≤ 2^16 - read_capacity` — performing
`put(A, O)` and then `get(A, _)` on the same simulated device yields a
value byte-equal to `O`, provided every readiness poll succeeds.  Stated
for both build configurations (AVR: page 32 / read capacity 32;
ESP8266: page 64 / read capacity 128). -/
theorem put_get_roundtrip (ps bs : Nat) (mem : Nat → Nat) (A : Nat)
    (data t : List Nat)
    (hb : (ps = 32 ∧ bs = 32) ∨ (ps = 64 ∧ bs = 128))
    (hA : A + data.length ≤ 65536)
    (hS : data.length + bs ≤ 65536)
    (ht : t.length = data.length) :
    (get bs true (put ps (fun _ => true) A data mem).1.mem A t).1 = some data := by
  have hps : ps = 32 ∨ ps = 64 := by
    rcases hb with ⟨h, _⟩ | ⟨h, _⟩
    · exact Or.inl h
    · exact Or.inr h
  have hbs : bs = 32 ∨ bs = 128 := by
    rcases hb with ⟨_, h⟩ | ⟨_, h⟩
    · exact Or.inl h
    · exact Or.inr h
  have hbs0 : 0 < bs := by rcases hbs with rfl | rfl <;> norm_num
  have hlen : data.length < 65536 := by omega
  have hget := get_ok bs ((put ps (fun _ => true) A data mem).1.mem) A t hbs
    (by omega)
  rw [hget]
  show some (readList ((put ps (fun _ => true) A data mem).1.mem) A t.length) =
    some data
  rw [ht]
  by_cases hlen0 : data.length = 0
  · rw [hlen0]
    rw [List.eq_nil_of_length_eq_zero hlen0]
    rfl
  · have hA16 : A < 65536 := by omega
    have hput : ∀ x, (put ps (fun _ => true) A data mem).1.mem x =
        if A ≤ x ∧ x < A + data.length then data.getD (x - A) 0 else mem x := by
      intro x
      unfold put
      rw [Nat.mod_eq_of_lt (show data.length < M16 by unfold M16; omega),
        Nat.mod_eq_of_lt (show A < M16 by unfold M16; omega), List.take_length]
      exact putLoop_mem ps (fun _ => true) hps (fun _ => rfl) data.length A data
        ⟨mem, 0⟩ (Nat.le_refl _) hA x
    congr 1
    apply List.ext_getElem?
    intro i
    rw [readList_getElem?]
    by_cases hi : i < data.length
    · rw [if_pos hi,
        Nat.mod_eq_of_lt (show A + i < M16 by unfold M16; omega),
        hput (A + i), if_pos (by omega),
        show A + i - A = i from by omega]
      cases hgi : data[i]? with
      | none =>
        exact absurd hgi (by simp [List.getElem?_eq_none_iff]; omega)
      | some d =>
        rw [List.getD_eq_getElem?_getD, hgi]
        rfl
    · rw [if_neg hi]
      exact (List.getElem?_eq_none (by omega)).symm

/-- Witness for `put_get_roundtrip`: the 8-byte object of the spec's
concrete scenario survives a round trip through address 30. -/
theorem put_get_roundtrip_witness :
    (get 32 true
      (put 32 (fun _ => true) 30 [1, 2, 3, 4, 5, 6, 7, 8] (fun _ => 0)).1.mem
      30 (List.replicate 8 0)).1 = some [1, 2, 3, 4, 5, 6, 7, 8] :=
  put_get_roundtrip 32 32 (fun _ => 0) 30 [1, 2, 3, 4, 5, 6, 7, 8]
    (List.replicate 8 0) (Or.inl ⟨rfl, rfl⟩) (by decide) (by decide) (by decide)

/-- **C2, counterexample to the unamended claim.**  On the ESP8266 build
(read capacity 128), take `A = 0` and `S = 65535` (so `A + S ≤ 2^16` as
the claim requires, and every poll succeeds).  `put` completes, but
`get`'s `uint16_t` loop index `i` steps through the multiples of 128,
wraps from 65408 + 128 = 65536 to 0, and never reaches `size = 65535`:
the loop never exits (modelled as `none`), so the round trip never
yields a value byte-equal to `O`. -/
theorem put_get_roundtrip_cex :
    (get 128 true
      (put 64 (fun _ => true) 0 (List.replicate 65535 7) (fun _ => 0)).1.mem
      0 (List.replicate 65535 7)).1 = none ∧
    (none : Option (List Nat)) ≠ some (List.replicate 65535 7) := by
  constructor
  · have hwrap := getLoop_wrap 128
      ((put 64 (fun _ => true) 0 (List.replicate 65535 7) (fun _ => 0)).1.mem)
      (0 % M16) 65535 (Or.inr rfl) (by norm_num) (by norm_num)
      (65535 + 1) 0 (by norm_num) (by norm_num)
    simp only [get, List.length_replicate]
    rw [show (65535 : Nat) % M16 = 65535 from by unfold M16; norm_num]
    rw [if_pos trivial, hwrap.1]
    rfl
  · exact fun h => Option.noConfusion h

/-- **C6 (amended).** For every object of size `S` — with, as forced by
the counterexample `get_chunk_count_cex`, `S ≤ 2^16 - read_capacity` —
`get` polls readiness exactly once before the whole transfer and, when
that poll succeeds, issues exactly `ceil(S / read_capacity)` read
transactions, each requesting `min(read_capacity, remaining)` bytes, at
consecutive chunk base addresses `A + read_capacity * j` in increasing
order — covering `[A, A + S)` with no gaps and no overlaps. -/
theorem get_chunked_read (bs : Nat) (mem : Nat → Nat) (A : Nat) (t : List Nat)
    (hbs : bs = 32 ∨ bs = 128) (hS : t.length + bs ≤ 65536) :
    (get bs true mem A t).2 =
      Tx.poll true :: (List.range ((t.length + bs - 1) / bs)).map
        (fun j => Tx.read ((A + bs * j) % M16) (min bs (t.length - bs * j))) ∧
    countPolls (get bs true mem A t).2 = 1 ∧
    countReads (get bs true mem A t).2 = (t.length + bs - 1) / bs := by
  have h := get_ok bs mem A t hbs hS
  have htr : (get bs true mem A t).2 =
      Tx.poll true :: (List.range ((t.length + bs - 1) / bs)).map
        (fun j => Tx.read ((A + bs * j) % M16) (min bs (t.length - bs * j))) := by
    rw [h]
  refine ⟨htr, ?_, ?_⟩
  · rw [htr, countPolls_cons_poll, countPolls_map_read]
  · rw [htr, countReads_cons_poll, countReads_map_read, List.length_range]

/-- Witness for `get_chunked_read`: a 70-byte object on the AVR build is
read in ceil(70/32) = 3 chunks of 32, 32 and 6 bytes. -/
theorem get_chunked_read_witness :
    (get 32 true (fun _ => 0) 100 (List.replicate 70 0)).2 =
      Tx.poll true ::
        (List.range (((List.replicate (70 : Nat) (0 : Nat)).length + 32 - 1) / 32)).map
        (fun j => Tx.read ((100 + 32 * j) % M16)
          (min 32 ((List.replicate (70 : Nat) (0 : Nat)).length - 32 * j))) ∧
    countPolls (get 32 true (fun _ => 0) 100 (List.replicate 70 0)).2 = 1 ∧
    countReads (get 32 true (fun _ => 0) 100 (List.replicate 70 0)).2 =
      ((List.replicate (70 : Nat) (0 : Nat)).length + 32 - 1) / 32 :=
  get_chunked_read 32 (fun _ => 0) 100 (List.replicate 70 0) (Or.inl rfl) (by decide)

/-- **C6, counterexample to the unamended claim.**  On the ESP8266 build
(read capacity 128) with `S = 65535`, `ceil(S / read_capacity) = 512`,
but the loop index wraps around `2^16` before reaching `size`, so the
loop never exits: already within the model's fuel the trace carries
65536 read transactions — every one of which the C code genuinely
issues — rather than exactly 512. -/
theorem get_chunk_count_cex :
    countReads (get 128 true (fun _ => 0) 0 (List.replicate 65535 3)).2 = 65536 ∧
    (65535 + 128 - 1) / 128 = 512 ∧ (65536 : Nat) ≠ 512 := by
  refine ⟨?_, by norm_num, by norm_num⟩
  have hwrap := getLoop_wrap 128 (fun _ => 0) (0 % M16) 65535 (Or.inr rfl)
    (by norm_num) (by norm_num) (65535 + 1) 0 (by norm_num) (by norm_num)
  simp only [get, List.length_replicate]
  rw [show (65535 : Nat) % M16 = 65535 from by unfold M16; norm_num]
  rw [if_pos trivial, countReads_cons_poll, hwrap.2]

/-- **C7.** If the transport never acknowledges (`endTransmission` never
returns 0), `ackPolling` terminates (the loop never exhausts its
6001-attempt fuel: the claim's "never loops indefinitely") and returns
`false` once 6 ms have elapsed on the monotonic microsecond clock; each
poll attempt begins only while the elapsed time is still below
6000 µs, and at most 5999 attempts are made.  Hypotheses: the clock is
strictly monotonic across readings (each poll attempt takes at least one
microsecond) and does not advance by a full 2^32 µs (≈ 71.6 min) during
the call. -/
theorem ackPolling_timeout (clock ack : Nat → Nat)
    (hm : ∀ k, clock k < clock (k + 1))
    (hb : clock 6001 - clock 0 < M32)
    (ha : ∀ j, ack j ≠ 0) :
    ackPolling clock ack ≠ none ∧
    (ackPolling clock ack).map Prod.fst = some false ∧
    (∀ a ∈ attemptsOf (ackPolling clock ack), a.elapsed < 6000) ∧
    (attemptsOf (ackPolling clock ack)).length ≤ 5999 := by
  obtain ⟨l, hl, he, hlen⟩ := ackLoop_timeout clock ack hm hb ha 6001 1
    (by norm_num) (by norm_num) (by norm_num)
  unfold ackPolling
  rw [hl]
  refine ⟨by simp, by simp, ?_, ?_⟩
  · show ∀ a ∈ ((some ((false, l)).snd).getD []), a.elapsed < 6000
    simpa using he
  · show ((some ((false, l)).snd).getD []).length ≤ 5999
    simp only [Option.getD_some]
    omega

/-- Witness for `ackPolling_timeout`: a clock advancing 1000 µs per
reading and a transport that always answers status 1. -/
theorem ackPolling_timeout_witness :
    ackPolling (fun k => 1000 * k) (fun _ => 1) ≠ none ∧
    (ackPolling (fun k => 1000 * k) (fun _ => 1)).map Prod.fst = some false ∧
    (∀ a ∈ attemptsOf (ackPolling (fun k => 1000 * k) (fun _ => 1)),
      a.elapsed < 6000) ∧
    (attemptsOf (ackPolling (fun k => 1000 * k) (fun _ => 1))).length ≤ 5999 :=
  ackPolling_timeout (fun k => 1000 * k) (fun _ => 1)
    (by intro k; show 1000 * k < 1000 * (k + 1); omega)
    (by unfold M32; norm_num) (by intro j; norm_num)

/-- **C8, counterexample to the claim as stated.**  A poll attempt of
`ackPolling` is not a zero-length addressed transaction: the source
queues one data byte (`Wire.write((uint8_t) 0)`), so the attempt's
payload is `[0]`, not `[]`.  Concretely, with a clock advancing 1000 µs
per reading and a transport acknowledging at once, the single recorded
attempt carries the payload `[0]`. -/
theorem ackPolling_payload_cex :
    ackPolling (fun k => 1000 * k) (fun _ => 0) =
      some (true, [⟨1000, [0], 0⟩]) ∧
    ([0] : List Nat) ≠ [] := by
  constructor
  · decide
  · decide

/-- **C8 (amended).** Each poll attempt made by `ackPolling` is an
addressed transaction carrying exactly one data byte, the byte 0 (not a
zero-length transaction, as forced by `ackPolling_payload_cex`);
`ackPolling` returns `true` exactly when such a transaction is
acknowledged (`endTransmission` status 0), `false` on timeout. -/
theorem ackPolling_attempts (clock ack : Nat → Nat) (b : Bool) (l : List Attempt)
    (h : ackPolling clock ack = some (b, l)) :
    (∀ a ∈ l, a.payload = [0]) ∧ (b = true ↔ ∃ a ∈ l, a.code = 0) :=
  ackLoop_shape clock ack 6001 1 b l h

/-- Witness for `ackPolling_attempts` on a concrete immediately-acking
run. -/
theorem ackPolling_attempts_witness :
    (∀ a ∈ [(⟨1000, [0], 0⟩ : Attempt)], a.payload = [0]) ∧
    (true = true ↔ ∃ a ∈ [(⟨1000, [0], 0⟩ : Attempt)], a.code = 0) :=
  ackPolling_attempts (fun k => 1000 * k) (fun _ => 0) true [⟨1000, [0], 0⟩]
    (by decide)

/-- **C9.** For every address and value, `update` first reads the byte at
the address (poll, then a one-byte read) and then issues a write
transaction if and only if the byte read differs from the given value
(assuming the polls inside `read` and `write` succeed); if the stored
byte already equals the value, no write transaction is issued. -/
theorem update_write_iff_diff (polls : Nat → Bool) (g : Nat) (mem : Nat → Nat)
    (address v : Nat) (h0 : polls 0 = true) (h1 : polls 1 = true) :
    (update polls g mem address v).2 =
      [Tx.poll true, Tx.read (address % M16) 1] ++
        (if mem (address % M16) = v then []
         else [Tx.poll true, Tx.write (address % M16) [v]]) ∧
    (countWrites (update polls g mem address v).2 = 0 ↔
      mem (address % M16) = v) := by
  simp only [update, read1, write1, h0, h1, if_true]
  by_cases hv : mem (address % M16) = v
  · rw [if_neg (by simp [hv])]
    simp [hv]
  · rw [if_pos (by simp [hv])]
    simp [hv]

/-- Witness for `update_write_iff_diff`: stored byte 5, new value 7 —
the trace ends with a write; the write-count is nonzero. -/
theorem update_write_iff_diff_witness :
    (update (fun _ => true) 0 (fun _ => 5) 10 7).2 =
      [Tx.poll true, Tx.read (10 % M16) 1] ++
        (if (fun _ => (5 : Nat)) (10 % M16) = 7 then []
         else [Tx.poll true, Tx.write (10 % M16) [7]]) ∧
    (countWrites (update (fun _ => true) 0 (fun _ => 5) 10 7).2 = 0 ↔
      (fun _ => (5 : Nat)) (10 % M16) = 7) :=
  update_write_iff_diff (fun _ => true) 0 (fun _ => 5) 10 7 rfl rfl

end E24LC256
